import Mathlib

/-!
Shallow embedding of the order matching engine
(`ExEngineService` in `src/unnamed/part_015`, shapes in
`src/backloop/syncroot/exengine/ExEngineShape.ts`).

JS numbers are modelled as rationals (`ℚ`), timestamps as integers,
the zod `parse` calls as boolean validators wrapped in `Option`
(a failed parse throws, i.e. yields `none`).  `Array.prototype.sort`
is stable (ES2019), so it is modelled by Mathlib's stable
`List.insertionSort` on the same comparator.  The event emitter is
modelled as an explicit list of emitted events.
-/

namespace ExEngine

/-- `"buy" | "sell"` -/
inductive Side where
  | buy
  | sell
  deriving DecidableEq, Repr

/-- `Order` record of `ExEngineShape.ts` (same fields as `OrderParams`). -/
structure Order where
  orderId : String
  price : ℚ
  quantity : ℚ
  side : Side
  timestamp : ℤ
  deriving DecidableEq, Repr

/-- `OrderParams`: identical field set to `Order` (`const order = { ...params }`). -/
abbrev OrderParams := Order

/-- `MatchResult` record of `ExEngineShape.ts`. -/
structure MatchResult where
  makerOrderId : String
  takerOrderId : String
  price : ℚ
  quantity : ℚ
  makerFee : ℚ
  takerFee : ℚ
  deriving DecidableEq, Repr

/-- `EngineStatus` record of `ExEngineShape.ts`. -/
structure EngineStatus where
  bids : ℕ
  asks : ℕ
  totalMatches : ℕ
  deriving DecidableEq, Repr

/-- `ExEngineConfig` record of `ExEngineShape.ts`. -/
structure ExEngineConfig where
  maxOrderBookSize : ℤ
  takerFeeRate : ℚ
  makerFeeRate : ℚ
  deriving DecidableEq, Repr

/-- Mutable fields of `ExEngineService`: the two book sides and the
lifetime match counter. -/
structure EngineState where
  bids : List Order
  asks : List Order
  totalMatches : ℕ
  deriving DecidableEq, Repr

/-- Fresh engine: both sides empty, counter zero. -/
def initialState : EngineState := ⟨[], [], 0⟩

/-- Events emitted through the `EventEmitter`, in emission order. -/
inductive Event where
  | orderSubmitted (o : Order)
  | matched (m : MatchResult)
  | orderRested (o : Order)
  | orderCanceled (orderId : String)
  deriving DecidableEq, Repr

/-- `exEngineConfigSchema`: `maxOrderBookSize` positive integer,
`takerFeeRate ∈ [0, 1]`, `makerFeeRate ∈ [-1, 1]`. -/
def validExEngineConfig (c : ExEngineConfig) : Bool :=
  decide (0 < c.maxOrderBookSize) &&
  decide (0 ≤ c.takerFeeRate) && decide (c.takerFeeRate ≤ 1) &&
  decide (-1 ≤ c.makerFeeRate) && decide (c.makerFeeRate ≤ 1)

/-- `orderParamsSchema`: non-empty id, positive price and quantity,
non-negative (integer) timestamp. -/
def validOrderParams (p : OrderParams) : Bool :=
  decide (1 ≤ p.orderId.length) &&
  decide (0 < p.price) &&
  decide (0 < p.quantity) &&
  decide (0 ≤ p.timestamp)

/-- The price condition of the matching loop:
`order.price >= bookOrder.price` for a buy taker,
`order.price <= bookOrder.price` for a sell taker. -/
def priceMatch (takerSide : Side) (takerPrice makerPrice : ℚ) : Bool :=
  match takerSide with
  | .buy => decide (makerPrice ≤ takerPrice)
  | .sell => decide (takerPrice ≤ makerPrice)

/-- Construction of one `MatchResult` (lines 55-67 of the source):
execution price is the book (maker) order's price, fees are
`matchQty * matchPrice * rate`. -/
def mkMatchResult (cfg : ExEngineConfig) (taker bookOrder : Order)
    (matchQty : ℚ) : MatchResult :=
  { makerOrderId := bookOrder.orderId
    takerOrderId := taker.orderId
    price := bookOrder.price
    quantity := matchQty
    makerFee := matchQty * bookOrder.price * cfg.makerFeeRate
    takerFee := matchQty * bookOrder.price * cfg.takerFeeRate }

/-- The `for` loop of `submitOrder` (lines 46-81): walk the sorted
opposite side while quantity remains and the price condition holds.
Returns the emitted match results in order, the remaining taker
quantity, and the surviving opposite side.  A fully filled book order
(`quantity <= 0` after deduction) is spliced out; a partially filled
one stays in place with reduced quantity. -/
def matchLoop (cfg : ExEngineConfig) (taker : Order) (remainingQty : ℚ) :
    List Order → List MatchResult × ℚ × List Order
  | [] => ([], remainingQty, [])
  | bookOrder :: rest =>
    if decide (0 < remainingQty) &&
        priceMatch taker.side taker.price bookOrder.price then
      let matchQty := min remainingQty bookOrder.quantity
      let result := mkMatchResult cfg taker bookOrder matchQty
      let next := matchLoop cfg taker (remainingQty - matchQty) rest
      if decide (bookOrder.quantity - matchQty ≤ 0) then
        (result :: next.1, next.2.1, next.2.2)
      else
        (result :: next.1, next.2.1,
          { bookOrder with quantity := bookOrder.quantity - matchQty } :: next.2.2)
    else ([], remainingQty, bookOrder :: rest)

/-- Comparator `(a, b) => a.price - b.price` used for a buy taker:
ascending price. -/
def buyPriority (a b : Order) : Prop := a.price ≤ b.price

/-- Comparator `(a, b) => b.price - a.price` used for a sell taker:
descending price. -/
def sellPriority (a b : Order) : Prop := b.price ≤ a.price

instance : DecidableRel buyPriority := fun a b => by
  unfold buyPriority; infer_instance

instance : DecidableRel sellPriority := fun a b => by
  unfold sellPriority; infer_instance

/-- `oppositeSide.sort(...)` (lines 39-41).  `Array.prototype.sort` is
stable, and a stable sort's output is uniquely determined by the
comparator and the input order, so Mathlib's stable `insertionSort`
on the same comparator is an exact model. -/
def sortOpposite (takerSide : Side) (l : List Order) : List Order :=
  match takerSide with
  | .buy => l.insertionSort buyPriority
  | .sell => l.insertionSort sellPriority

/-- The side an incoming order matches against. -/
def oppositeBook (st : EngineState) (takerSide : Side) : List Order :=
  match takerSide with
  | .buy => st.asks
  | .sell => st.bids

/-- Result of one `submitOrder` call on already validated params:
the emitted matches, the rested leftover (if any) and the new state. -/
structure SubmitOutcome where
  matchResults : List MatchResult
  rested : Option Order
  state : EngineState
  deriving DecidableEq, Repr

/-- The taker's own side, where a leftover would rest. -/
def ownBook (st : EngineState) (takerSide : Side) : List Order :=
  match takerSide with
  | .buy => st.bids
  | .sell => st.asks

/-- Write back the mutated own side and opposite side, bumping the
match counter. -/
def updateBooks (st : EngineState) (takerSide : Side)
    (own opposite : List Order) (nMatches : ℕ) : EngineState :=
  match takerSide with
  | .buy =>
    { bids := own, asks := opposite, totalMatches := st.totalMatches + nMatches }
  | .sell =>
    { bids := opposite, asks := own, totalMatches := st.totalMatches + nMatches }

/-- Body of `submitOrder` (lines 32-94) after the zod parse succeeded. -/
def submitOrderValid (cfg : ExEngineConfig) (st : EngineState)
    (p : OrderParams) : SubmitOutcome :=
  let sorted := sortOpposite p.side (oppositeBook st p.side)
  let walk := matchLoop cfg p p.quantity sorted
  let remainingQty := walk.2.1
  let rested : Option Order :=
    if decide (0 < remainingQty) then some { p with quantity := remainingQty }
    else none
  let restedList := match rested with
    | some o => [o]
    | none => []
  ⟨walk.1, rested,
    updateBooks st p.side (ownBook st p.side ++ restedList) walk.2.2 walk.1.length⟩

/-- `submitOrder` (line 30): `orderParamsSchema.parse` throws on invalid
input (`none`); otherwise the matching body runs. -/
def submitOrder (cfg : ExEngineConfig) (st : EngineState) (p : OrderParams) :
    Option SubmitOutcome :=
  if validOrderParams p then some (submitOrderValid cfg st p) else none

/-- Events emitted during one successful `submitOrder` call, in order:
`orderSubmitted`, then one `matched` per match, then `orderRested`
if a leftover rests. -/
def submitEvents (p : OrderParams) (out : SubmitOutcome) : List Event :=
  Event.orderSubmitted p ::
    (out.matchResults.map Event.matched ++
      match out.rested with
      | some o => [Event.orderRested o]
      | none => [])

/-- `removeFromBook` (lines 106-113): `findIndex` + `splice`, i.e.
remove the first order with the given id, report whether one was found. -/
def removeFromBook (book : List Order) (orderId : String) :
    Bool × List Order :=
  match book with
  | [] => (false, [])
  | o :: rest =>
    if o.orderId == orderId then (true, rest)
    else
      let r := removeFromBook rest orderId
      (r.1, o :: r.2)

/-- `cancelOrder` (lines 100-104): try the bids, then (only if not found
there, `||` short-circuits) the asks; emit a notification on success. -/
def cancelOrder (st : EngineState) (orderId : String) :
    Bool × EngineState × List Event :=
  let rb := removeFromBook st.bids orderId
  if rb.1 then (true, { st with bids := rb.2 }, [Event.orderCanceled orderId])
  else
    let ra := removeFromBook st.asks orderId
    if ra.1 then (true, { st with asks := ra.2 }, [Event.orderCanceled orderId])
    else (false, st, [])

/-- `getStatus` (lines 118-124). -/
def getStatus (st : EngineState) : EngineStatus :=
  ⟨st.bids.length, st.asks.length, st.totalMatches⟩

/-- One external call to the engine. -/
inductive Op where
  | submit (p : OrderParams)
  | cancel (orderId : String)
  deriving DecidableEq, Repr

/-- A sequence of calls against one engine instance; `none` as soon as a
submit's zod parse throws.  Returns the final state and the full event
stream. -/
def runOps (cfg : ExEngineConfig) (st : EngineState) :
    List Op → Option (EngineState × List Event)
  | [] => some (st, [])
  | Op.submit p :: ops =>
    match submitOrder cfg st p with
    | none => none
    | some out =>
      (runOps cfg out.state ops).map fun r => (r.1, submitEvents p out ++ r.2)
  | Op.cancel oid :: ops =>
    let c := cancelOrder st oid
    (runOps cfg c.2.1 ops).map fun r => (r.1, c.2.2 ++ r.2)

/-- All resting orders, bids then asks. -/
def book (st : EngineState) : List Order := st.bids ++ st.asks

/-- The ids of all resting orders. -/
def bookIds (st : EngineState) : List String := (book st).map Order.orderId

/-- Every resting order has strictly positive quantity. -/
def bookQtyPos (st : EngineState) : Prop := ∀ o ∈ book st, 0 < o.quantity

instance : DecidablePred bookQtyPos := fun st => by
  unfold bookQtyPos; infer_instance

/-- Quantity of the rested leftover, `0` if nothing rested. -/
def restedQty : Option Order → ℚ
  | none => 0
  | some o => o.quantity

/-- The order ids of the submissions in a call sequence. -/
def submitIds (ops : List Op) : List String :=
  ops.filterMap fun op =>
    match op with
    | Op.submit p => some p.orderId
    | Op.cancel _ => none

end ExEngine

namespace ExEngine

/-! ### Lemmas about the matching loop -/

theorem matchLoop_nonpos (cfg : ExEngineConfig) (taker : Order) (q : ℚ)
    (l : List Order) (hq : ¬ 0 < q) : matchLoop cfg taker q l = ([], q, l) := by
  cases l with
  | nil => simp [matchLoop]
  | cons o rest => simp [matchLoop, hq]

theorem matchLoop_conserve (cfg : ExEngineConfig) (taker : Order) :
    ∀ (l : List Order) (q : ℚ),
      (matchLoop cfg taker q l).2.1 +
        ((matchLoop cfg taker q l).1.map MatchResult.quantity).sum = q := by
  intro l
  induction l with
  | nil => intro q; simp [matchLoop]
  | cons o rest ih =>
    intro q
    by_cases h : (decide (0 < q) && priceMatch taker.side taker.price o.price) = true
    · simp only [matchLoop, mkMatchResult]
      rw [if_pos h]
      by_cases h2 : (o.quantity - min q o.quantity ≤ 0)
      · rw [if_pos (decide_eq_true h2)]
        simp only [List.map_cons, List.sum_cons]
        have := ih (q - min q o.quantity)
        linarith
      · rw [if_neg (by simpa using h2)]
        simp only [List.map_cons, List.sum_cons]
        have := ih (q - min q o.quantity)
        linarith
    · simp [matchLoop, h]

end ExEngine

namespace ExEngine

theorem matchLoop_rem_nonneg (cfg : ExEngineConfig) (taker : Order) :
    ∀ (l : List Order) (q : ℚ), 0 ≤ q → 0 ≤ (matchLoop cfg taker q l).2.1 := by
  intro l
  induction l with
  | nil => intro q hq; simpa [matchLoop] using hq
  | cons o rest ih =>
    intro q hq
    by_cases h : (decide (0 < q) && priceMatch taker.side taker.price o.price) = true
    · simp only [matchLoop]
      rw [if_pos h]
      have hrec : 0 ≤ q - min q o.quantity := by
        have := min_le_left q o.quantity
        linarith
      by_cases h2 : (o.quantity - min q o.quantity ≤ 0)
      · rw [if_pos (decide_eq_true h2)]
        exact ih _ hrec
      · rw [if_neg (by simpa using h2)]
        exact ih _ hrec
    · simpa [matchLoop, h] using hq

theorem matchLoop_book_pos (cfg : ExEngineConfig) (taker : Order) :
    ∀ (l : List Order) (q : ℚ), (∀ o ∈ l, 0 < o.quantity) →
      ∀ o ∈ (matchLoop cfg taker q l).2.2, 0 < o.quantity := by
  intro l
  induction l with
  | nil => intro q _; simp [matchLoop]
  | cons o rest ih =>
    intro q hl
    by_cases h : (decide (0 < q) && priceMatch taker.side taker.price o.price) = true
    · simp only [matchLoop]
      rw [if_pos h]
      have hrest : ∀ o' ∈ rest, 0 < o'.quantity := fun o' ho' => hl o' (List.mem_cons_of_mem _ ho')
      by_cases h2 : (o.quantity - min q o.quantity ≤ 0)
      · rw [if_pos (decide_eq_true h2)]
        exact ih _ hrest
      · rw [if_neg (by simpa using h2)]
        intro o' ho'
        rcases List.mem_cons.1 ho' with h' | h'
        · subst h'
          simpa using lt_of_not_le h2
        · exact ih _ hrest o' h'
    · rw [matchLoop, if_neg h]
      exact hl

theorem matchLoop_book_nonneg (cfg : ExEngineConfig) (taker : Order) :
    ∀ (l : List Order) (q : ℚ), (∀ o ∈ l, 0 ≤ o.quantity) →
      ∀ o ∈ (matchLoop cfg taker q l).2.2, 0 ≤ o.quantity := by
  intro l
  induction l with
  | nil => intro q _; simp [matchLoop]
  | cons o rest ih =>
    intro q hl
    by_cases h : (decide (0 < q) && priceMatch taker.side taker.price o.price) = true
    · simp only [matchLoop]
      rw [if_pos h]
      have hrest : ∀ o' ∈ rest, 0 ≤ o'.quantity := fun o' ho' => hl o' (List.mem_cons_of_mem _ ho')
      by_cases h2 : (o.quantity - min q o.quantity ≤ 0)
      · rw [if_pos (decide_eq_true h2)]
        exact ih _ hrest
      · rw [if_neg (by simpa using h2)]
        intro o' ho'
        rcases List.mem_cons.1 ho' with h' | h'
        · subst h'
          have := lt_of_not_le h2
          simp only
          linarith
        · exact ih _ hrest o' h'
    · rw [matchLoop, if_neg h]
      exact hl

theorem matchLoop_fees (cfg : ExEngineConfig) (taker : Order) :
    ∀ (l : List Order) (q : ℚ), ∀ m ∈ (matchLoop cfg taker q l).1,
      m.makerFee = m.quantity * m.price * cfg.makerFeeRate ∧
      m.takerFee = m.quantity * m.price * cfg.takerFeeRate := by
  intro l
  induction l with
  | nil => intro q; simp [matchLoop]
  | cons o rest ih =>
    intro q
    by_cases h : (decide (0 < q) && priceMatch taker.side taker.price o.price) = true
    · simp only [matchLoop]
      rw [if_pos h]
      by_cases h2 : (o.quantity - min q o.quantity ≤ 0)
      · rw [if_pos (decide_eq_true h2)]
        intro m hm
        rcases List.mem_cons.1 hm with h' | h'
        · subst h'; exact ⟨rfl, rfl⟩
        · exact ih _ m h'
      · rw [if_neg (by simpa using h2)]
        intro m hm
        rcases List.mem_cons.1 hm with h' | h'
        · subst h'; exact ⟨rfl, rfl⟩
        · exact ih _ m h'
    · simp [matchLoop, h]

theorem matchLoop_maker_mem (cfg : ExEngineConfig) (taker : Order) :
    ∀ (l : List Order) (q : ℚ), ∀ m ∈ (matchLoop cfg taker q l).1,
      ∃ o ∈ l, m.makerOrderId = o.orderId ∧ m.price = o.price ∧
        m.quantity ≤ o.quantity := by
  intro l
  induction l with
  | nil => intro q; simp [matchLoop]
  | cons o rest ih =>
    intro q
    by_cases h : (decide (0 < q) && priceMatch taker.side taker.price o.price) = true
    · simp only [matchLoop]
      rw [if_pos h]
      have hhead : ∀ m', m' = mkMatchResult cfg taker o (min q o.quantity) →
          ∃ o' ∈ o :: rest, m'.makerOrderId = o'.orderId ∧ m'.price = o'.price ∧
            m'.quantity ≤ o'.quantity := by
        intro m' hm'
        subst hm'
        exact ⟨o, List.mem_cons_self o rest, rfl, rfl, min_le_right _ _⟩
      by_cases h2 : (o.quantity - min q o.quantity ≤ 0)
      · rw [if_pos (decide_eq_true h2)]
        intro m hm
        rcases List.mem_cons.1 hm with h' | h'
        · exact hhead m h'
        · obtain ⟨o', ho', hprops⟩ := ih _ m h'
          exact ⟨o', List.mem_cons_of_mem _ ho', hprops⟩
      · rw [if_neg (by simpa using h2)]
        intro m hm
        rcases List.mem_cons.1 hm with h' | h'
        · exact hhead m h'
        · obtain ⟨o', ho', hprops⟩ := ih _ m h'
          exact ⟨o', List.mem_cons_of_mem _ ho', hprops⟩
    · simp [matchLoop, h]

theorem matchLoop_qty_bound (cfg : ExEngineConfig) (taker : Order) :
    ∀ (l : List Order) (q : ℚ), 0 ≤ q → (∀ o ∈ l, 0 ≤ o.quantity) →
      ∀ m ∈ (matchLoop cfg taker q l).1, 0 ≤ m.quantity ∧ m.quantity ≤ q := by
  intro l
  induction l with
  | nil => intro q _ _; simp [matchLoop]
  | cons o rest ih =>
    intro q hq hl
    by_cases h : (decide (0 < q) && priceMatch taker.side taker.price o.price) = true
    · simp only [matchLoop]
      rw [if_pos h]
      have hoq : 0 ≤ o.quantity := hl o (List.mem_cons_self o rest)
      have hmin0 : 0 ≤ min q o.quantity := le_min hq hoq
      have hminq : min q o.quantity ≤ q := min_le_left _ _
      have hrq : 0 ≤ q - min q o.quantity := by linarith
      have hrest : ∀ o' ∈ rest, 0 ≤ o'.quantity := fun o' ho' => hl o' (List.mem_cons_of_mem _ ho')
      have hstep : ∀ m ∈ (matchLoop cfg taker (q - min q o.quantity) rest).1,
          0 ≤ m.quantity ∧ m.quantity ≤ q := by
        intro m hm
        obtain ⟨h0, h1⟩ := ih _ hrq hrest m hm
        exact ⟨h0, by linarith⟩
      by_cases h2 : (o.quantity - min q o.quantity ≤ 0)
      · rw [if_pos (decide_eq_true h2)]
        intro m hm
        rcases List.mem_cons.1 hm with h' | h'
        · subst h'; exact ⟨hmin0, hminq⟩
        · exact hstep m h'
      · rw [if_neg (by simpa using h2)]
        intro m hm
        rcases List.mem_cons.1 hm with h' | h'
        · subst h'; exact ⟨hmin0, hminq⟩
        · exact hstep m h'
    · simp [matchLoop, h]

theorem matchLoop_ids_sublist (cfg : ExEngineConfig) (taker : Order) :
    ∀ (l : List Order) (q : ℚ),
      ((matchLoop cfg taker q l).2.2.map Order.orderId).Sublist (l.map Order.orderId) := by
  intro l
  induction l with
  | nil => intro q; simp [matchLoop]
  | cons o rest ih =>
    intro q
    by_cases h : (decide (0 < q) && priceMatch taker.side taker.price o.price) = true
    · simp only [matchLoop]
      rw [if_pos h]
      by_cases h2 : (o.quantity - min q o.quantity ≤ 0)
      · rw [if_pos (decide_eq_true h2)]
        exact (ih _).trans (List.sublist_cons_self _ _)
      · rw [if_neg (by simpa using h2)]
        simp only [List.map_cons]
        exact List.Sublist.cons₂ o.orderId (ih (q - min q o.quantity))
    · simp [matchLoop, h]

end ExEngine

namespace ExEngine

/-- The walk stops at the first candidate failing the price condition:
everything from that candidate on is returned untouched, and the
matches and remaining quantity are those of the walk over the part
before it. -/
theorem matchLoop_stop (cfg : ExEngineConfig) (taker : Order) (bad : Order)
    (hbad : priceMatch taker.side taker.price bad.price = false) :
    ∀ (l₁ l₂ : List Order) (q : ℚ),
      matchLoop cfg taker q (l₁ ++ bad :: l₂) =
        ((matchLoop cfg taker q l₁).1, (matchLoop cfg taker q l₁).2.1,
          (matchLoop cfg taker q l₁).2.2 ++ bad :: l₂) := by
  intro l₁
  induction l₁ with
  | nil =>
    intro l₂ q
    simp [matchLoop, hbad]
  | cons x rest ih =>
    intro l₂ q
    by_cases h : (decide (0 < q) && priceMatch taker.side taker.price x.price) = true
    · simp only [List.cons_append, matchLoop, List.append_eq]
      rw [if_pos h, if_pos h]
      by_cases h2 : (x.quantity - min q x.quantity ≤ 0)
      · rw [if_pos (decide_eq_true h2), if_pos (decide_eq_true h2)]
        rw [ih l₂ (q - min q x.quantity)]
      · rw [if_neg (by simpa using h2), if_neg (by simpa using h2)]
        rw [ih l₂ (q - min q x.quantity)]
        rfl
    · simp [matchLoop, h]

/-- If some match goes to a maker located after `o1` in the walked list,
then the walk fully consumed `o1` first: the match list splits into a
part that touches no maker of the tail `s₂` — containing a match that
consumes all of `o1.quantity` — followed by the rest. -/
theorem matchLoop_later_full (cfg : ExEngineConfig) (taker o1 : Order) :
    ∀ (s₁ : List Order) (q : ℚ) (s₂ : List Order),
      (∀ y ∈ s₁, y.orderId ∉ s₂.map Order.orderId) →
      o1.orderId ∉ s₂.map Order.orderId →
      (∃ m2 ∈ (matchLoop cfg taker q (s₁ ++ o1 :: s₂)).1,
        m2.makerOrderId ∈ s₂.map Order.orderId) →
      ∃ ms₁ ms₂, (matchLoop cfg taker q (s₁ ++ o1 :: s₂)).1 = ms₁ ++ ms₂ ∧
        (∃ m1 ∈ ms₁, m1.makerOrderId = o1.orderId ∧ m1.quantity = o1.quantity) ∧
        ∀ m ∈ ms₁, m.makerOrderId ∉ s₂.map Order.orderId := by
  intro s₁
  induction s₁ with
  | nil =>
    intro q s₂ _ h2 hex
    simp only [List.nil_append] at hex ⊢
    by_cases h : (decide (0 < q) && priceMatch taker.side taker.price o1.price) = true
    · simp only [matchLoop] at hex ⊢
      rw [if_pos h] at hex ⊢
      by_cases hfull : (o1.quantity - min q o1.quantity ≤ 0)
      · rw [if_pos (decide_eq_true hfull)] at hex ⊢
        refine ⟨[mkMatchResult cfg taker o1 (min q o1.quantity)],
          (matchLoop cfg taker (q - min q o1.quantity) s₂).1, rfl, ?_, ?_⟩
        · refine ⟨mkMatchResult cfg taker o1 (min q o1.quantity),
            List.mem_singleton.2 rfl, rfl, ?_⟩
          have h1 : min q o1.quantity ≤ o1.quantity := min_le_right _ _
          have h2' : o1.quantity ≤ min q o1.quantity := by linarith
          exact le_antisymm h1 h2'
        · intro m hm
          rcases List.mem_singleton.1 hm with h'
          subst h'
          exact h2
      · rw [if_neg (by simpa using hfull)] at hex
        exfalso
        have hq0 : min q o1.quantity = q := by
          rcases min_choice q o1.quantity with hc | hc
          · exact hc
          · exfalso; apply hfull; rw [hc]; simp
        have hnil : (matchLoop cfg taker (q - min q o1.quantity) s₂).1 = [] := by
          rw [hq0, sub_self]
          rw [matchLoop_nonpos cfg taker 0 s₂ (lt_irrefl 0)]
        obtain ⟨m2, hm2, hid⟩ := hex
        rcases List.mem_cons.1 hm2 with h' | h'
        · subst h'; exact h2 hid
        · rw [hnil] at h'; exact absurd h' (List.not_mem_nil _)
    · exfalso
      obtain ⟨m2, hm2, _⟩ := hex
      simp [matchLoop, h] at hm2
  | cons x rest ih =>
    intro q s₂ h1 h2 hex
    have hx : x.orderId ∉ s₂.map Order.orderId := h1 x (List.mem_cons_self _ _)
    have h1' : ∀ y ∈ rest, y.orderId ∉ s₂.map Order.orderId :=
      fun y hy => h1 y (List.mem_cons_of_mem _ hy)
    simp only [List.cons_append] at hex ⊢
    by_cases h : (decide (0 < q) && priceMatch taker.side taker.price x.price) = true
    · simp only [matchLoop] at hex ⊢
      rw [if_pos h] at hex ⊢
      by_cases hfull : (x.quantity - min q x.quantity ≤ 0)
      · rw [if_pos (decide_eq_true hfull)] at hex ⊢
        obtain ⟨m2, hm2, hid⟩ := hex
        have hm2' : m2 ∈ (matchLoop cfg taker (q - min q x.quantity)
            (rest ++ o1 :: s₂)).1 := by
          rcases List.mem_cons.1 hm2 with h' | h'
          · exfalso; subst h'; exact hx hid
          · exact h'
        obtain ⟨ms₁, ms₂, heq, hm1, hnone⟩ :=
          ih (q - min q x.quantity) s₂ h1' h2 ⟨m2, hm2', hid⟩
        refine ⟨mkMatchResult cfg taker x (min q x.quantity) :: ms₁, ms₂, ?_, ?_, ?_⟩
        · rw [List.cons_append, heq]
        · obtain ⟨m1, hm1mem, hm1props⟩ := hm1
          exact ⟨m1, List.mem_cons_of_mem _ hm1mem, hm1props⟩
        · intro m hm
          rcases List.mem_cons.1 hm with h' | h'
          · subst h'; exact hx
          · exact hnone m h'
      · rw [if_neg (by simpa using hfull)] at hex
        exfalso
        have hq0 : min q x.quantity = q := by
          rcases min_choice q x.quantity with hc | hc
          · exact hc
          · exfalso; apply hfull; rw [hc]; simp
        have hnil : (matchLoop cfg taker (q - min q x.quantity)
            (rest ++ o1 :: s₂)).1 = [] := by
          rw [hq0, sub_self]
          rw [matchLoop_nonpos cfg taker 0 _ (lt_irrefl 0)]
        obtain ⟨m2, hm2, hid⟩ := hex
        rcases List.mem_cons.1 hm2 with h' | h'
        · subst h'; exact hx hid
        · rw [hnil] at h'; exact absurd h' (List.not_mem_nil _)
    · exfalso
      obtain ⟨m2, hm2, _⟩ := hex
      simp [matchLoop, h] at hm2

end ExEngine

namespace ExEngine

/-! ### Lemmas about cancellation and sorting -/

theorem removeFromBook_not_found (l : List Order) (oid : String)
    (h : ∀ o ∈ l, o.orderId ≠ oid) : removeFromBook l oid = (false, l) := by
  induction l with
  | nil => rfl
  | cons o rest ih =>
    have hne : (o.orderId == oid) = false :=
      beq_eq_false_iff_ne.2 (h o (List.mem_cons_self _ _))
    have := ih fun o' ho' => h o' (List.mem_cons_of_mem _ ho')
    simp [removeFromBook, hne, this]

theorem removeFromBook_found (l : List Order) (oid : String)
    (hcount : l.countP (fun o => o.orderId == oid) ≤ 1)
    (hex : ∃ o ∈ l, o.orderId = oid) :
    removeFromBook l oid = (true, l.filter (fun o => !(o.orderId == oid))) := by
  induction l with
  | nil => simp at hex
  | cons o rest ih =>
    by_cases ho : o.orderId = oid
    · have hbeq : (o.orderId == oid) = true := beq_iff_eq.2 ho
      have hrest0 : rest.countP (fun o => o.orderId == oid) = 0 := by
        rw [List.countP_cons, hbeq] at hcount
        simp only [if_true] at hcount
        omega
      have hnone : ∀ o' ∈ rest, ¬ (o'.orderId == oid) = true := by
        intro o' ho'
        intro hb
        have hpos : 0 < rest.countP (fun o => o.orderId == oid) :=
          List.countP_pos_iff.2 ⟨o', ho', hb⟩
        omega
      have hfilter : rest.filter (fun o => !(o.orderId == oid)) = rest := by
        apply List.filter_eq_self.2
        intro o' ho'
        simp only [Bool.not_eq_true']
        exact Bool.eq_false_iff.2 fun hb => hnone o' ho' hb
      simp [removeFromBook, hbeq, List.filter_cons, hfilter]
    · have hbeq : (o.orderId == oid) = false := beq_eq_false_iff_ne.2 ho
      have hex' : ∃ o' ∈ rest, o'.orderId = oid := by
        obtain ⟨o', ho', he⟩ := hex
        rcases List.mem_cons.1 ho' with h' | h'
        · exact absurd (h' ▸ he) ho
        · exact ⟨o', h', he⟩
      have hcount' : rest.countP (fun o => o.orderId == oid) ≤ 1 := by
        rw [List.countP_cons, hbeq] at hcount
        omega
      have := ih hcount' hex'
      simp [removeFromBook, hbeq, this, List.filter_cons]

theorem removeFromBook_sublist (l : List Order) (oid : String) :
    (removeFromBook l oid).2.Sublist l := by
  induction l with
  | nil => simp [removeFromBook]
  | cons o rest ih =>
    by_cases h : (o.orderId == oid) = true
    · simp [removeFromBook, h]
    · simp only [removeFromBook, h, Bool.false_eq_true, if_neg, if_false]
      exact List.Sublist.cons₂ o ih

theorem sortOpposite_perm (s : Side) (l : List Order) :
    (sortOpposite s l).Perm l := by
  cases s
  · exact List.perm_insertionSort buyPriority l
  · exact List.perm_insertionSort sellPriority l

theorem mem_sortOpposite {s : Side} {l : List Order} {o : Order} :
    o ∈ sortOpposite s l ↔ o ∈ l :=
  (sortOpposite_perm s l).mem_iff

/-! ### Lemmas about `submitOrder` -/

theorem submitOrder_eq_some {cfg : ExEngineConfig} {st : EngineState}
    {p : OrderParams} {out : SubmitOutcome}
    (h : submitOrder cfg st p = some out) :
    validOrderParams p = true ∧ out = submitOrderValid cfg st p := by
  by_cases hv : validOrderParams p = true
  · refine ⟨hv, ?_⟩
    rw [submitOrder, if_pos hv] at h
    exact (Option.some.inj h).symm
  · rw [submitOrder, if_neg hv] at h
    exact absurd h (by simp)

theorem validOrderParams_iff {p : OrderParams} :
    validOrderParams p = true ↔
      1 ≤ p.orderId.length ∧ 0 < p.price ∧ 0 < p.quantity ∧ 0 ≤ p.timestamp := by
  simp [validOrderParams]
  tauto

/-- The match list of a successful submission is the walk over the
sorted opposite side. -/
theorem submitOrderValid_matchResults (cfg : ExEngineConfig)
    (st : EngineState) (p : OrderParams) :
    (submitOrderValid cfg st p).matchResults =
      (matchLoop cfg p p.quantity (sortOpposite p.side (oppositeBook st p.side))).1 := rfl

theorem submitOrderValid_rested (cfg : ExEngineConfig)
    (st : EngineState) (p : OrderParams) :
    (submitOrderValid cfg st p).rested =
      (if 0 < (matchLoop cfg p p.quantity
          (sortOpposite p.side (oppositeBook st p.side))).2.1 then
        some { p with quantity := (matchLoop cfg p p.quantity
          (sortOpposite p.side (oppositeBook st p.side))).2.1 }
      else none) := by
  rw [submitOrderValid]
  by_cases h : 0 < (matchLoop cfg p p.quantity
      (sortOpposite p.side (oppositeBook st p.side))).2.1
  · rw [if_pos (decide_eq_true h), if_pos h]
  · rw [if_neg (by simpa using h), if_neg h]

end ExEngine

namespace ExEngine

theorem mem_book_updateBooks {st : EngineState} {s : Side}
    {own opp : List Order} {n : ℕ} {o : Order} :
    o ∈ book (updateBooks st s own opp n) ↔ o ∈ own ∨ o ∈ opp := by
  cases s
  · simp [book, updateBooks]
  · simp [book, updateBooks]
    tauto

theorem book_updateBooks_perm (st : EngineState) (s : Side)
    (own opp : List Order) (n : ℕ) :
    (book (updateBooks st s own opp n)).Perm (own ++ opp) := by
  cases s
  · exact List.Perm.refl _
  · exact List.perm_append_comm

theorem mem_oppositeBook_book {st : EngineState} {s : Side} {o : Order}
    (h : o ∈ oppositeBook st s) : o ∈ book st := by
  cases s
  · exact List.mem_append.2 (Or.inr h)
  · exact List.mem_append.2 (Or.inl h)

theorem mem_ownBook_book {st : EngineState} {s : Side} {o : Order}
    (h : o ∈ ownBook st s) : o ∈ book st := by
  cases s
  · exact List.mem_append.2 (Or.inl h)
  · exact List.mem_append.2 (Or.inr h)

/-- The submitted outcome's state, in terms of the walk. -/
theorem submitOrderValid_state (cfg : ExEngineConfig) (st : EngineState)
    (p : OrderParams) :
    (submitOrderValid cfg st p).state =
      updateBooks st p.side
        (ownBook st p.side ++
          (match (submitOrderValid cfg st p).rested with
            | some o => [o]
            | none => []))
        (matchLoop cfg p p.quantity (sortOpposite p.side (oppositeBook st p.side))).2.2
        (submitOrderValid cfg st p).matchResults.length := rfl

/-- A successful submission keeps every resting quantity strictly
positive, provided the submitted quantity is positive. -/
theorem submitOrderValid_book_pos (cfg : ExEngineConfig) (st : EngineState)
    (p : OrderParams) (hst : bookQtyPos st) :
    bookQtyPos (submitOrderValid cfg st p).state := by
  intro o ho
  rw [submitOrderValid_state] at ho
  rcases mem_book_updateBooks.1 ho with h | h
  · rcases List.mem_append.1 h with h' | h'
    · exact hst o (mem_ownBook_book h')
    · rw [submitOrderValid_rested] at h'
      by_cases hrem : 0 < (matchLoop cfg p p.quantity
          (sortOpposite p.side (oppositeBook st p.side))).2.1
      · rw [if_pos hrem] at h'
        rcases List.mem_singleton.1 h' with h''
        subst h''
        exact hrem
      · rw [if_neg hrem] at h'
        exact absurd h' (List.not_mem_nil _)
  · refine matchLoop_book_pos cfg p _ p.quantity ?_ o h
    intro o' ho'
    exact hst o' (mem_oppositeBook_book (mem_sortOpposite.1 ho'))

/-- Cancellation only removes orders, so it preserves any pointwise
book property. -/
theorem cancelOrder_book_sublist (st : EngineState) (oid : String) :
    (book (cancelOrder st oid).2.1).Sublist (book st) := by
  rw [cancelOrder]
  by_cases hb : (removeFromBook st.bids oid).1 = true
  · rw [if_pos hb]
    exact List.Sublist.append (removeFromBook_sublist st.bids oid) (List.Sublist.refl _)
  · rw [if_neg hb]
    by_cases ha : (removeFromBook st.asks oid).1 = true
    · rw [if_pos ha]
      exact List.Sublist.append (List.Sublist.refl _) (removeFromBook_sublist st.asks oid)
    · rw [if_neg ha]

end ExEngine

namespace ExEngine

/-- C1: for every submitOrder call with a validated order, the sum of the
quantities of all emitted matches plus the quantity of the rested
leftover (zero if nothing rests) equals the submitted quantity. -/
theorem submitOrder_quantity_conservation
    (cfg : ExEngineConfig) (st : EngineState) (p : OrderParams)
    (out : SubmitOutcome) (h : submitOrder cfg st p = some out) :
    (out.matchResults.map MatchResult.quantity).sum + restedQty out.rested
      = p.quantity := by
  obtain ⟨hv, hout⟩ := submitOrder_eq_some h
  subst hout
  have hcons := matchLoop_conserve cfg p
    (sortOpposite p.side (oppositeBook st p.side)) p.quantity
  have hq : 0 < p.quantity := (validOrderParams_iff.1 hv).2.2.1
  have hnn := matchLoop_rem_nonneg cfg p
    (sortOpposite p.side (oppositeBook st p.side)) p.quantity (le_of_lt hq)
  rw [submitOrderValid_matchResults, submitOrderValid_rested]
  by_cases hrem : 0 < (matchLoop cfg p p.quantity
      (sortOpposite p.side (oppositeBook st p.side))).2.1
  · rw [if_pos hrem]
    simp only [restedQty]
    linarith
  · rw [if_neg hrem]
    simp only [restedQty]
    have h0 : (matchLoop cfg p p.quantity
        (sortOpposite p.side (oppositeBook st p.side))).2.1 = 0 :=
      le_antisymm (not_lt.1 hrem) hnn
    linarith

theorem submitOrder_quantity_conservation_witness :
    ((submitOrderValid ⟨1000, 0, 0⟩ ⟨[], [⟨"M", 10, 5, Side.sell, 1⟩], 0⟩
        ⟨"T", 12, 8, Side.buy, 2⟩).matchResults.map MatchResult.quantity).sum +
      restedQty (submitOrderValid ⟨1000, 0, 0⟩ ⟨[], [⟨"M", 10, 5, Side.sell, 1⟩], 0⟩
        ⟨"T", 12, 8, Side.buy, 2⟩).rested = (8 : ℚ) :=
  submitOrder_quantity_conservation ⟨1000, 0, 0⟩
    ⟨[], [⟨"M", 10, 5, Side.sell, 1⟩], 0⟩ ⟨"T", 12, 8, Side.buy, 2⟩ _
    (by with_unfolding_all decide)

/-- C3: every match produced by submitOrder carries the price of the
resting (maker) order it consumed, as recorded in the opposite book at
call time — never the taker's limit price when the two differ. -/
theorem submitOrder_maker_price
    (cfg : ExEngineConfig) (st : EngineState) (p : OrderParams)
    (out : SubmitOutcome) (h : submitOrder cfg st p = some out) :
    ∀ m ∈ out.matchResults, ∃ o ∈ oppositeBook st p.side,
      m.makerOrderId = o.orderId ∧ m.price = o.price := by
  obtain ⟨hv, hout⟩ := submitOrder_eq_some h
  subst hout
  rw [submitOrderValid_matchResults]
  intro m hm
  obtain ⟨o, ho, h1, h2, _⟩ := matchLoop_maker_mem cfg p _ p.quantity m hm
  exact ⟨o, mem_sortOpposite.1 ho, h1, h2⟩

theorem submitOrder_maker_price_witness :
    ∃ o ∈ oppositeBook ⟨[], [⟨"M", 10, 5, Side.sell, 1⟩], 0⟩
        (⟨"T", 12, 8, Side.buy, 2⟩ : OrderParams).side,
      (⟨"M", "T", 10, 5, 0, 0⟩ : MatchResult).makerOrderId = o.orderId ∧
      (⟨"M", "T", 10, 5, 0, 0⟩ : MatchResult).price = o.price :=
  submitOrder_maker_price ⟨1000, 0, 0⟩ ⟨[], [⟨"M", 10, 5, Side.sell, 1⟩], 0⟩
    ⟨"T", 12, 8, Side.buy, 2⟩
    (submitOrderValid ⟨1000, 0, 0⟩ ⟨[], [⟨"M", 10, 5, Side.sell, 1⟩], 0⟩
      ⟨"T", 12, 8, Side.buy, 2⟩)
    (by with_unfolding_all decide)
    ⟨"M", "T", 10, 5, 0, 0⟩ (by with_unfolding_all decide)

/-- C4: every emitted match carries makerFee equal to
quantity * price * makerFeeRate and takerFee equal to
quantity * price * takerFeeRate, with the rates taken from the immutable
construction-time configuration; the schema accepts a negative
makerFeeRate (a rebate), such as the default -0.0001. -/
theorem submitOrder_fee_formula :
    (∀ (cfg : ExEngineConfig) (st : EngineState) (p : OrderParams)
        (out : SubmitOutcome), submitOrder cfg st p = some out →
      ∀ m ∈ out.matchResults,
        m.makerFee = m.quantity * m.price * cfg.makerFeeRate ∧
        m.takerFee = m.quantity * m.price * cfg.takerFeeRate) ∧
    validExEngineConfig ⟨1000, 0.002, -0.0001⟩ = true := by
  constructor
  · intro cfg st p out h m hm
    obtain ⟨hv, hout⟩ := submitOrder_eq_some h
    subst hout
    rw [submitOrderValid_matchResults] at hm
    exact matchLoop_fees cfg p _ p.quantity m hm
  · with_unfolding_all decide

theorem submitOrder_fee_formula_witness :
    (⟨"M", "T", 10, 5, -0.005, 0.1⟩ : MatchResult).makerFee =
      (⟨"M", "T", 10, 5, -0.005, 0.1⟩ : MatchResult).quantity *
        (⟨"M", "T", 10, 5, -0.005, 0.1⟩ : MatchResult).price *
        (⟨1000, 0.002, -0.0001⟩ : ExEngineConfig).makerFeeRate ∧
    (⟨"M", "T", 10, 5, -0.005, 0.1⟩ : MatchResult).takerFee =
      (⟨"M", "T", 10, 5, -0.005, 0.1⟩ : MatchResult).quantity *
        (⟨"M", "T", 10, 5, -0.005, 0.1⟩ : MatchResult).price *
        (⟨1000, 0.002, -0.0001⟩ : ExEngineConfig).takerFeeRate :=
  submitOrder_fee_formula.1 ⟨1000, 0.002, -0.0001⟩
    ⟨[], [⟨"M", 10, 5, Side.sell, 1⟩], 0⟩ ⟨"T", 12, 8, Side.buy, 2⟩
    (submitOrderValid ⟨1000, 0.002, -0.0001⟩
      ⟨[], [⟨"M", 10, 5, Side.sell, 1⟩], 0⟩ ⟨"T", 12, 8, Side.buy, 2⟩)
    (by with_unfolding_all decide)
    ⟨"M", "T", 10, 5, -0.005, 0.1⟩ (by with_unfolding_all decide)

/-- C5: the walk over the priority-ordered opposite side stops at the
first candidate failing the price condition — every candidate after it
is returned untouched and contributes no match — and if the first
candidate fails, no match occurs at all. -/
theorem submitOrder_stops_at_first_fail
    (cfg : ExEngineConfig) (taker : Order) (bad : Order)
    (l₁ l₂ : List Order) (q : ℚ)
    (hbad : priceMatch taker.side taker.price bad.price = false) :
    matchLoop cfg taker q (l₁ ++ bad :: l₂) =
      ((matchLoop cfg taker q l₁).1, (matchLoop cfg taker q l₁).2.1,
        (matchLoop cfg taker q l₁).2.2 ++ bad :: l₂) ∧
    matchLoop cfg taker q (bad :: l₂) = ([], q, bad :: l₂) :=
  ⟨matchLoop_stop cfg taker bad hbad l₁ l₂ q, by simp [matchLoop, hbad]⟩

theorem submitOrder_stops_at_first_fail_witness :
    (matchLoop ⟨1, 0, 0⟩ ⟨"T", 10, 1, Side.buy, 0⟩ 1
        ([⟨"M", 9, 1, Side.sell, 0⟩] ++ ⟨"B", 11, 1, Side.sell, 0⟩ ::
          [⟨"N", 12, 1, Side.sell, 0⟩]) =
      ((matchLoop ⟨1, 0, 0⟩ ⟨"T", 10, 1, Side.buy, 0⟩ 1
          [⟨"M", 9, 1, Side.sell, 0⟩]).1,
        (matchLoop ⟨1, 0, 0⟩ ⟨"T", 10, 1, Side.buy, 0⟩ 1
          [⟨"M", 9, 1, Side.sell, 0⟩]).2.1,
        (matchLoop ⟨1, 0, 0⟩ ⟨"T", 10, 1, Side.buy, 0⟩ 1
          [⟨"M", 9, 1, Side.sell, 0⟩]).2.2 ++ ⟨"B", 11, 1, Side.sell, 0⟩ ::
            [⟨"N", 12, 1, Side.sell, 0⟩])) ∧
    matchLoop ⟨1, 0, 0⟩ ⟨"T", 10, 1, Side.buy, 0⟩ 1
        (⟨"B", 11, 1, Side.sell, 0⟩ :: [⟨"N", 12, 1, Side.sell, 0⟩]) =
      ([], 1, ⟨"B", 11, 1, Side.sell, 0⟩ :: [⟨"N", 12, 1, Side.sell, 0⟩]) :=
  submitOrder_stops_at_first_fail ⟨1, 0, 0⟩ ⟨"T", 10, 1, Side.buy, 0⟩
    ⟨"B", 11, 1, Side.sell, 0⟩ [⟨"M", 9, 1, Side.sell, 0⟩]
    [⟨"N", 12, 1, Side.sell, 0⟩] 1 (by decide)

/-- C9: under the validated-input precondition the validation-failure
branch is unreachable, so submitOrder always returns an outcome; and the
loop's quantity arithmetic stays non-negative: the remaining taker
quantity and every book quantity stay at or above zero, and every
matched quantity is non-negative and bounded by both the taker's
remaining quantity and its maker's resting quantity. -/
theorem submitOrder_no_throw_nonneg :
    (∀ (cfg : ExEngineConfig) (st : EngineState) (p : OrderParams),
      validOrderParams p = true → (submitOrder cfg st p).isSome = true) ∧
    (∀ (cfg : ExEngineConfig) (taker : Order) (l : List Order) (q : ℚ),
      0 ≤ q → (∀ o ∈ l, 0 ≤ o.quantity) →
      0 ≤ (matchLoop cfg taker q l).2.1 ∧
      (∀ o ∈ (matchLoop cfg taker q l).2.2, 0 ≤ o.quantity) ∧
      (∀ m ∈ (matchLoop cfg taker q l).1,
        0 ≤ m.quantity ∧ m.quantity ≤ q ∧
        ∃ o ∈ l, m.makerOrderId = o.orderId ∧ m.quantity ≤ o.quantity)) := by
  constructor
  · intro cfg st p hv
    rw [submitOrder, if_pos hv]
    rfl
  · intro cfg taker l q hq hl
    refine ⟨matchLoop_rem_nonneg cfg taker l q hq,
      matchLoop_book_nonneg cfg taker l q hl, ?_⟩
    intro m hm
    obtain ⟨h0, h1⟩ := matchLoop_qty_bound cfg taker l q hq hl m hm
    obtain ⟨o, ho, hid, _, hqty⟩ := matchLoop_maker_mem cfg taker l q m hm
    exact ⟨h0, h1, o, ho, hid, hqty⟩

theorem submitOrder_no_throw_nonneg_witness :
    (submitOrder ⟨1, 0, 0⟩ initialState ⟨"T", 1, 1, Side.buy, 0⟩).isSome = true ∧
    (0 ≤ (matchLoop ⟨1, 0, 0⟩ ⟨"T", 1, 1, Side.buy, 0⟩ 1
        [⟨"M", 1, 2, Side.sell, 0⟩]).2.1 ∧
      (∀ o ∈ (matchLoop ⟨1, 0, 0⟩ ⟨"T", 1, 1, Side.buy, 0⟩ 1
        [⟨"M", 1, 2, Side.sell, 0⟩]).2.2, 0 ≤ o.quantity) ∧
      (∀ m ∈ (matchLoop ⟨1, 0, 0⟩ ⟨"T", 1, 1, Side.buy, 0⟩ 1
        [⟨"M", 1, 2, Side.sell, 0⟩]).1,
        0 ≤ m.quantity ∧ m.quantity ≤ 1 ∧
        ∃ o ∈ [(⟨"M", 1, 2, Side.sell, 0⟩ : Order)],
          m.makerOrderId = o.orderId ∧ m.quantity ≤ o.quantity)) :=
  ⟨submitOrder_no_throw_nonneg.1 ⟨1, 0, 0⟩ initialState ⟨"T", 1, 1, Side.buy, 0⟩
      (by decide),
    submitOrder_no_throw_nonneg.2 ⟨1, 0, 0⟩ ⟨"T", 1, 1, Side.buy, 0⟩
      [⟨"M", 1, 2, Side.sell, 0⟩] 1 (by decide) (by decide)⟩

end ExEngine

namespace ExEngine

/-- C6: every resting order has strictly positive quantity: the empty
initial book satisfies this, every successful submission preserves it
(a fully filled maker is removed within the call, a leftover rests only
when strictly positive), and cancellation preserves it.  `getStatus`
reads the counters without touching the book. -/
theorem book_quantity_invariant :
    bookQtyPos initialState ∧
    (∀ (cfg : ExEngineConfig) (st : EngineState) (p : OrderParams)
        (out : SubmitOutcome), bookQtyPos st → submitOrder cfg st p = some out →
      bookQtyPos out.state) ∧
    (∀ (st : EngineState) (oid : String), bookQtyPos st →
      bookQtyPos (cancelOrder st oid).2.1) := by
  refine ⟨?_, ?_, ?_⟩
  · intro o ho
    simp [book, initialState] at ho
  · intro cfg st p out hst h
    obtain ⟨hv, hout⟩ := submitOrder_eq_some h
    subst hout
    exact submitOrderValid_book_pos cfg st p hst
  · intro st oid hst o ho
    exact hst o ((cancelOrder_book_sublist st oid).subset ho)

theorem book_quantity_invariant_witness :
    bookQtyPos (submitOrderValid ⟨1000, 0, 0⟩
        ⟨[], [⟨"M", 10, 5, Side.sell, 1⟩], 0⟩ ⟨"T", 12, 8, Side.buy, 2⟩).state ∧
    bookQtyPos (cancelOrder ⟨[], [⟨"M", 10, 5, Side.sell, 1⟩], 0⟩ "M").2.1 :=
  ⟨book_quantity_invariant.2.1 ⟨1000, 0, 0⟩
      ⟨[], [⟨"M", 10, 5, Side.sell, 1⟩], 0⟩ ⟨"T", 12, 8, Side.buy, 2⟩ _
      (by decide) (by with_unfolding_all decide),
    book_quantity_invariant.2.2 ⟨[], [⟨"M", 10, 5, Side.sell, 1⟩], 0⟩ "M"
      (by decide)⟩

/-- C7 counterexample: the engine never checks id uniqueness, so two
resting orders can share an id (reachable below: a sell and a
non-crossing buy both named "x"); cancelling "x" then succeeds twice,
refuting "a second cancel of the same identifier always returns
false". -/
theorem cancelOrder_double_cancel_cex :
    (runOps ⟨1000, 0, 0⟩ initialState
        [Op.submit ⟨"x", 10, 1, Side.sell, 0⟩,
         Op.submit ⟨"x", 5, 1, Side.buy, 1⟩]).map Prod.fst =
      some ⟨[⟨"x", 5, 1, Side.buy, 1⟩], [⟨"x", 10, 1, Side.sell, 0⟩], 0⟩ ∧
    (cancelOrder ⟨[⟨"x", 5, 1, Side.buy, 1⟩], [⟨"x", 10, 1, Side.sell, 0⟩], 0⟩
      "x").1 = true ∧
    (cancelOrder
      (cancelOrder ⟨[⟨"x", 5, 1, Side.buy, 1⟩], [⟨"x", 10, 1, Side.sell, 0⟩], 0⟩
        "x").2.1 "x").1 = true := by
  with_unfolding_all decide

/-- C7 (amended): provided at most one resting order carries the
identifier, cancelOrder returns true, removes exactly that order,
leaves the counter alone and emits one cancellation notification when
the id is resting on either side; it returns false and changes nothing
when it is not; and a second cancel of the same identifier then returns
false. -/
theorem cancelOrder_spec (st : EngineState) (oid : String)
    (huniq : (book st).countP (fun o => o.orderId == oid) ≤ 1) :
    ((∃ o ∈ book st, o.orderId = oid) →
      (cancelOrder st oid).1 = true ∧
      (cancelOrder st oid).2.1.bids = st.bids.filter (fun o => !(o.orderId == oid)) ∧
      (cancelOrder st oid).2.1.asks = st.asks.filter (fun o => !(o.orderId == oid)) ∧
      (cancelOrder st oid).2.1.totalMatches = st.totalMatches ∧
      (cancelOrder st oid).2.2 = [Event.orderCanceled oid] ∧
      (cancelOrder (cancelOrder st oid).2.1 oid).1 = false) ∧
    ((¬ ∃ o ∈ book st, o.orderId = oid) →
      cancelOrder st oid = (false, st, [])) := by
  have hcount : st.bids.countP (fun o => o.orderId == oid) +
      st.asks.countP (fun o => o.orderId == oid) ≤ 1 := by
    have h := huniq
    rw [book, List.countP_append] at h
    exact h
  have hfilter_of_none : ∀ l : List Order, (∀ o ∈ l, o.orderId ≠ oid) →
      l.filter (fun o => !(o.orderId == oid)) = l := by
    intro l h
    apply List.filter_eq_self.2
    intro o ho
    simp [beq_eq_false_iff_ne.2 (h o ho)]
  have hnone_of_zero : ∀ l : List Order,
      l.countP (fun o => o.orderId == oid) = 0 → ∀ o ∈ l, o.orderId ≠ oid := by
    intro l h0 o ho he
    have : 0 < l.countP (fun o => o.orderId == oid) :=
      List.countP_pos_iff.2 ⟨o, ho, beq_iff_eq.2 he⟩
    omega
  have hno_filter : ∀ l : List Order,
      ∀ o ∈ l.filter (fun o => !(o.orderId == oid)), o.orderId ≠ oid := by
    intro l o ho
    have := (List.mem_filter.1 ho).2
    simpa using this
  constructor
  · intro hex
    by_cases hbids : ∃ o ∈ st.bids, o.orderId = oid
    · have hcb : st.bids.countP (fun o => o.orderId == oid) ≤ 1 := by omega
      have hrb := removeFromBook_found st.bids oid hcb hbids
      have hca0 : st.asks.countP (fun o => o.orderId == oid) = 0 := by
        obtain ⟨o, ho, he⟩ := hbids
        have : 0 < st.bids.countP (fun o => o.orderId == oid) :=
          List.countP_pos_iff.2 ⟨o, ho, beq_iff_eq.2 he⟩
        omega
      have hasksnone := hnone_of_zero st.asks hca0
      have hcancel : cancelOrder st oid =
          (true, { st with bids := st.bids.filter (fun o => !(o.orderId == oid)) },
            [Event.orderCanceled oid]) := by
        simp [cancelOrder, hrb]
      rw [hcancel]
      refine ⟨rfl, rfl, (hfilter_of_none st.asks hasksnone).symm, rfl, rfl, ?_⟩
      have h1 := removeFromBook_not_found
        (st.bids.filter (fun o => !(o.orderId == oid))) oid (hno_filter st.bids)
      have h2 := removeFromBook_not_found st.asks oid hasksnone
      simp [cancelOrder, h1, h2]
    · have hbidsnone : ∀ o ∈ st.bids, o.orderId ≠ oid := by
        intro o ho he
        exact hbids ⟨o, ho, he⟩
      have hasks : ∃ o ∈ st.asks, o.orderId = oid := by
        obtain ⟨o, ho, he⟩ := hex
        rcases List.mem_append.1 ho with h' | h'
        · exact absurd ⟨o, h', he⟩ hbids
        · exact ⟨o, h', he⟩
      have hca : st.asks.countP (fun o => o.orderId == oid) ≤ 1 := by omega
      have hra := removeFromBook_found st.asks oid hca hasks
      have hcancel : cancelOrder st oid =
          (true, { st with asks := st.asks.filter (fun o => !(o.orderId == oid)) },
            [Event.orderCanceled oid]) := by
        simp [cancelOrder, removeFromBook_not_found st.bids oid hbidsnone, hra]
      rw [hcancel]
      refine ⟨rfl, (hfilter_of_none st.bids hbidsnone).symm, rfl, rfl, rfl, ?_⟩
      have h1 := removeFromBook_not_found st.bids oid hbidsnone
      have h2 := removeFromBook_not_found
        (st.asks.filter (fun o => !(o.orderId == oid))) oid (hno_filter st.asks)
      simp [cancelOrder, h1, h2]
  · intro hnone
    have hb : ∀ o ∈ st.bids, o.orderId ≠ oid := by
      intro o ho he
      exact hnone ⟨o, List.mem_append.2 (Or.inl ho), he⟩
    have ha : ∀ o ∈ st.asks, o.orderId ≠ oid := by
      intro o ho he
      exact hnone ⟨o, List.mem_append.2 (Or.inr ho), he⟩
    have h1 := removeFromBook_not_found st.bids oid hb
    have h2 := removeFromBook_not_found st.asks oid ha
    simp [cancelOrder, h1, h2]

theorem cancelOrder_spec_witness :
    ((∃ o ∈ book ⟨[⟨"b", 5, 1, Side.buy, 0⟩], [⟨"a", 10, 1, Side.sell, 0⟩], 3⟩,
        o.orderId = "a") →
      (cancelOrder ⟨[⟨"b", 5, 1, Side.buy, 0⟩], [⟨"a", 10, 1, Side.sell, 0⟩], 3⟩
        "a").1 = true ∧
      (cancelOrder ⟨[⟨"b", 5, 1, Side.buy, 0⟩], [⟨"a", 10, 1, Side.sell, 0⟩], 3⟩
        "a").2.1.bids =
        List.filter (fun o => !(o.orderId == "a"))
          [⟨"b", 5, 1, Side.buy, 0⟩] ∧
      (cancelOrder ⟨[⟨"b", 5, 1, Side.buy, 0⟩], [⟨"a", 10, 1, Side.sell, 0⟩], 3⟩
        "a").2.1.asks =
        List.filter (fun o => !(o.orderId == "a"))
          [⟨"a", 10, 1, Side.sell, 0⟩] ∧
      (cancelOrder ⟨[⟨"b", 5, 1, Side.buy, 0⟩], [⟨"a", 10, 1, Side.sell, 0⟩], 3⟩
        "a").2.1.totalMatches = 3 ∧
      (cancelOrder ⟨[⟨"b", 5, 1, Side.buy, 0⟩], [⟨"a", 10, 1, Side.sell, 0⟩], 3⟩
        "a").2.2 = [Event.orderCanceled "a"] ∧
      (cancelOrder
        (cancelOrder ⟨[⟨"b", 5, 1, Side.buy, 0⟩], [⟨"a", 10, 1, Side.sell, 0⟩], 3⟩
          "a").2.1 "a").1 = false) ∧
    ((¬ ∃ o ∈ book ⟨[⟨"b", 5, 1, Side.buy, 0⟩], [⟨"a", 10, 1, Side.sell, 0⟩], 3⟩,
        o.orderId = "a") →
      cancelOrder ⟨[⟨"b", 5, 1, Side.buy, 0⟩], [⟨"a", 10, 1, Side.sell, 0⟩], 3⟩
        "a" =
        (false, ⟨[⟨"b", 5, 1, Side.buy, 0⟩], [⟨"a", 10, 1, Side.sell, 0⟩], 3⟩, [])) :=
  cancelOrder_spec ⟨[⟨"b", 5, 1, Side.buy, 0⟩], [⟨"a", 10, 1, Side.sell, 0⟩], 3⟩
    "a" (by decide)

end ExEngine

namespace ExEngine

theorem matchLoop_congr (cfg₁ cfg₂ : ExEngineConfig)
    (ht : cfg₁.takerFeeRate = cfg₂.takerFeeRate)
    (hm : cfg₁.makerFeeRate = cfg₂.makerFeeRate) (taker : Order) :
    ∀ (l : List Order) (q : ℚ),
      matchLoop cfg₁ taker q l = matchLoop cfg₂ taker q l := by
  intro l
  induction l with
  | nil => intro q; rfl
  | cons o rest ih =>
    intro q
    simp only [matchLoop, mkMatchResult, ht, hm, ih]

theorem submitOrderValid_congr (cfg₁ cfg₂ : ExEngineConfig)
    (ht : cfg₁.takerFeeRate = cfg₂.takerFeeRate)
    (hm : cfg₁.makerFeeRate = cfg₂.makerFeeRate)
    (st : EngineState) (p : OrderParams) :
    submitOrderValid cfg₁ st p = submitOrderValid cfg₂ st p := by
  simp only [submitOrderValid, matchLoop_congr cfg₁ cfg₂ ht hm]

theorem runOps_congr (cfg₁ cfg₂ : ExEngineConfig)
    (ht : cfg₁.takerFeeRate = cfg₂.takerFeeRate)
    (hm : cfg₁.makerFeeRate = cfg₂.makerFeeRate) :
    ∀ (ops : List Op) (st : EngineState),
      runOps cfg₁ st ops = runOps cfg₂ st ops := by
  intro ops
  induction ops with
  | nil => intro st; rfl
  | cons op rest ih =>
    intro st
    cases op with
    | submit p =>
      simp only [runOps, submitOrder, submitOrderValid_congr cfg₁ cfg₂ ht hm, ih]
    | cancel oid =>
      simp only [runOps, ih]

/-- C10: `maxOrderBookSize` never influences behavior — two engines
whose configurations agree on the fee rates (i.e. differ only in
`maxOrderBookSize`) produce identical outcomes, events and book states
on every call sequence; and a side can grow past `maxOrderBookSize`
(here 2 resting bids under a configured bound of 1), since submission
never rejects or evicts on account of book size. -/
theorem maxOrderBookSize_irrelevant :
    (∀ (cfg₁ cfg₂ : ExEngineConfig), cfg₁.takerFeeRate = cfg₂.takerFeeRate →
      cfg₁.makerFeeRate = cfg₂.makerFeeRate →
      ∀ (st : EngineState) (ops : List Op),
        runOps cfg₁ st ops = runOps cfg₂ st ops) ∧
    ((runOps ⟨1, 0, 0⟩ initialState
        [Op.submit ⟨"b1", 5, 1, Side.buy, 0⟩,
         Op.submit ⟨"b2", 6, 1, Side.buy, 1⟩]).map
      (fun r => (getStatus r.1).bids) = some 2 ∧
      (⟨1, 0, 0⟩ : ExEngineConfig).maxOrderBookSize = 1) := by
  constructor
  · intro cfg₁ cfg₂ ht hm st ops
    exact runOps_congr cfg₁ cfg₂ ht hm ops st
  · constructor
    · with_unfolding_all decide
    · rfl

theorem maxOrderBookSize_irrelevant_witness :
    runOps ⟨1, 0, 0⟩ initialState
        [Op.submit ⟨"s", 10, 5, Side.sell, 1⟩, Op.submit ⟨"b", 10, 3, Side.buy, 2⟩,
         Op.cancel "s"] =
      runOps ⟨123456, 0, 0⟩ initialState
        [Op.submit ⟨"s", 10, 5, Side.sell, 1⟩, Op.submit ⟨"b", 10, 3, Side.buy, 2⟩,
         Op.cancel "s"] :=
  maxOrderBookSize_irrelevant.1 ⟨1, 0, 0⟩ ⟨123456, 0, 0⟩ rfl rfl initialState
    [Op.submit ⟨"s", 10, 5, Side.sell, 1⟩, Op.submit ⟨"b", 10, 3, Side.buy, 2⟩,
     Op.cancel "s"]

end ExEngine

namespace ExEngine

theorem nodup_ids_decomp (s₁ : List Order) (o1 : Order) (s₂ : List Order)
    (h : ((s₁ ++ o1 :: s₂).map Order.orderId).Nodup) :
    o1.orderId ∉ s₂.map Order.orderId ∧
      ∀ y ∈ s₁, y.orderId ∉ s₂.map Order.orderId := by
  rw [List.map_append, List.map_cons, List.nodup_append] at h
  obtain ⟨h1, h2, hdisj⟩ := h
  refine ⟨(List.nodup_cons.1 h2).1, ?_⟩
  intro y hy hymem
  exact hdisj (List.mem_map_of_mem Order.orderId hy) (List.mem_cons_of_mem _ hymem)

/-- C2 counterexample: two equal-price sells rest, submitted in the
order timestamp 5 ("A") then timestamp 3 ("B"); the price-only stable
sort keeps "A" first, so the incoming matching buy fills "A" — the
order with the earlier timestamp receives no fill, refuting strict
FIFO by timestamp. -/
theorem price_time_priority_cex :
    (runOps ⟨1000, 0, 0⟩ initialState
        [Op.submit ⟨"A", 10, 1, Side.sell, 5⟩,
         Op.submit ⟨"B", 10, 1, Side.sell, 3⟩]).map Prod.fst =
      some ⟨[], [⟨"A", 10, 1, Side.sell, 5⟩, ⟨"B", 10, 1, Side.sell, 3⟩], 0⟩ ∧
    (submitOrder ⟨1000, 0, 0⟩
        ⟨[], [⟨"A", 10, 1, Side.sell, 5⟩, ⟨"B", 10, 1, Side.sell, 3⟩], 0⟩
        ⟨"C", 10, 1, Side.buy, 6⟩).map
      (fun out => out.matchResults.map MatchResult.makerOrderId) = some ["A"] := by
  with_unfolding_all decide

/-- C2 (amended): for two resting orders on the same side at equal
price with timestamps t1 < t2 whose book positions agree with the
timestamps (the t1 order precedes the t2 order, as when timestamps are
monotone in submission order) and with book-wide distinct ids, if the
t2 order receives any fill during a submission, then the match list
splits so that the t1 order was already consumed completely — for its
full quantity — before any fill of the t2 order. -/
theorem submitOrder_price_time_priority
    (cfg : ExEngineConfig) (st : EngineState) (p : OrderParams)
    (out : SubmitOutcome) (o1 o2 : Order) (l₁ l₂ l₃ : List Order)
    (hB : oppositeBook st p.side = l₁ ++ o1 :: (l₂ ++ o2 :: l₃))
    (hprice : o1.price = o2.price)
    (ht : o1.timestamp < o2.timestamp)
    (hnodup : ((oppositeBook st p.side).map Order.orderId).Nodup)
    (hsub : submitOrder cfg st p = some out)
    (hm2 : ∃ m2 ∈ out.matchResults, m2.makerOrderId = o2.orderId) :
    ∃ ms₁ ms₂, out.matchResults = ms₁ ++ ms₂ ∧
      (∃ m1 ∈ ms₁, m1.makerOrderId = o1.orderId ∧ m1.quantity = o1.quantity) ∧
      ∀ m ∈ ms₁, m.makerOrderId ≠ o2.orderId := by
  obtain ⟨hv, hout⟩ := submitOrder_eq_some hsub
  subst hout
  rw [submitOrderValid_matchResults] at hm2 ⊢
  -- o1 appears before o2 in the book, at equal prices, so the stable
  -- sort keeps o1 before o2
  have hpairB : List.Sublist [o1, o2] (oppositeBook st p.side) := by
    rw [hB]
    refine List.Sublist.trans ?_ (List.sublist_append_right l₁ _)
    exact List.Sublist.cons₂ o1
      (List.singleton_sublist.2 (List.mem_append.2 (Or.inr (List.mem_cons_self _ _))))
  have hpairS : List.Sublist [o1, o2]
      (sortOpposite p.side (oppositeBook st p.side)) := by
    cases hside : p.side
    · rw [hside] at hpairB
      simp only [sortOpposite]
      exact List.pair_sublist_insertionSort (le_of_eq hprice) hpairB
    · rw [hside] at hpairB
      simp only [sortOpposite]
      exact List.pair_sublist_insertionSort (le_of_eq hprice.symm) hpairB
  obtain ⟨r₁, r₂, hSeq, ho1r₁, hsub2⟩ := List.cons_sublist_iff.1 hpairS
  have ho2r₂ : o2 ∈ r₂ := List.singleton_sublist.1 hsub2
  obtain ⟨u, v, hr₁⟩ := List.append_of_mem ho1r₁
  have hS : sortOpposite p.side (oppositeBook st p.side) = u ++ o1 :: (v ++ r₂) := by
    rw [hSeq, hr₁]
    simp
  have hnodupS : ((sortOpposite p.side (oppositeBook st p.side)).map
      Order.orderId).Nodup :=
    (((sortOpposite_perm p.side (oppositeBook st p.side)).map
      Order.orderId).nodup_iff).2 hnodup
  rw [hS] at hnodupS
  obtain ⟨hfresh1, hfreshu⟩ := nodup_ids_decomp u o1 (v ++ r₂) hnodupS
  have ho2mem : o2.orderId ∈ (v ++ r₂).map Order.orderId :=
    List.mem_map_of_mem Order.orderId (List.mem_append.2 (Or.inr ho2r₂))
  rw [hS] at hm2 ⊢
  obtain ⟨m2, hm2mem, hm2id⟩ := hm2
  obtain ⟨ms₁, ms₂, heq, hm1, hnone⟩ :=
    matchLoop_later_full cfg p o1 u p.quantity (v ++ r₂) hfreshu hfresh1
      ⟨m2, hm2mem, hm2id ▸ ho2mem⟩
  refine ⟨ms₁, ms₂, heq, hm1, ?_⟩
  intro m hm hmid
  exact hnone m hm (hmid ▸ ho2mem)

theorem submitOrder_price_time_priority_witness :
    ∃ ms₁ ms₂,
      (submitOrderValid ⟨1000, 0, 0⟩
        ⟨[], [⟨"X", 10, 1, Side.sell, 3⟩, ⟨"Y", 10, 1, Side.sell, 5⟩], 0⟩
        ⟨"C", 10, 2, Side.buy, 6⟩).matchResults = ms₁ ++ ms₂ ∧
      (∃ m1 ∈ ms₁,
        m1.makerOrderId = (⟨"X", 10, 1, Side.sell, 3⟩ : Order).orderId ∧
        m1.quantity = (⟨"X", 10, 1, Side.sell, 3⟩ : Order).quantity) ∧
      ∀ m ∈ ms₁, m.makerOrderId ≠ (⟨"Y", 10, 1, Side.sell, 5⟩ : Order).orderId :=
  submitOrder_price_time_priority ⟨1000, 0, 0⟩
    ⟨[], [⟨"X", 10, 1, Side.sell, 3⟩, ⟨"Y", 10, 1, Side.sell, 5⟩], 0⟩
    ⟨"C", 10, 2, Side.buy, 6⟩
    (submitOrderValid ⟨1000, 0, 0⟩
      ⟨[], [⟨"X", 10, 1, Side.sell, 3⟩, ⟨"Y", 10, 1, Side.sell, 5⟩], 0⟩
      ⟨"C", 10, 2, Side.buy, 6⟩)
    ⟨"X", 10, 1, Side.sell, 3⟩ ⟨"Y", 10, 1, Side.sell, 5⟩ [] [] []
    rfl rfl (by decide) (by decide) (by with_unfolding_all decide)
    (by with_unfolding_all decide)

end ExEngine

namespace ExEngine

theorem bookIds_perm_own_opp (st : EngineState) (s : Side) :
    (bookIds st).Perm
      ((ownBook st s).map Order.orderId ++ (oppositeBook st s).map Order.orderId) := by
  cases s
  · rw [bookIds, book, List.map_append]
    exact List.Perm.refl _
  · rw [bookIds, book, List.map_append]
    exact List.perm_append_comm

theorem restedList_ids (cfg : ExEngineConfig) (st : EngineState) (p : OrderParams) :
    ∀ i ∈ (match (submitOrderValid cfg st p).rested with
        | some o => [o]
        | none => ([] : List Order)).map Order.orderId, i = p.orderId := by
  rw [submitOrderValid_rested]
  by_cases h : 0 < (matchLoop cfg p p.quantity
      (sortOpposite p.side (oppositeBook st p.side))).2.1
  · rw [if_pos h]
    intro i hi
    simpa using hi
  · rw [if_neg h]
    intro i hi
    simp at hi

theorem submitOrderValid_book_perm (cfg : ExEngineConfig) (st : EngineState)
    (p : OrderParams) :
    (book (submitOrderValid cfg st p).state).Perm
      ((ownBook st p.side ++
        (match (submitOrderValid cfg st p).rested with
          | some o => [o]
          | none => [])) ++
        (matchLoop cfg p p.quantity
          (sortOpposite p.side (oppositeBook st p.side))).2.2) := by
  rw [submitOrderValid_state]
  exact book_updateBooks_perm st p.side _ _ _

theorem submitOrderValid_bookIds_sub (cfg : ExEngineConfig) (st : EngineState)
    (p : OrderParams) :
    ∀ i ∈ bookIds (submitOrderValid cfg st p).state,
      i ∈ bookIds st ∨ i = p.orderId := by
  intro i hi
  rw [bookIds] at hi
  have hperm := (submitOrderValid_book_perm cfg st p).map Order.orderId
  have hi' := hperm.subset hi
  rw [List.map_append, List.map_append] at hi'
  rcases List.mem_append.1 hi' with h' | h'
  · rcases List.mem_append.1 h' with h'' | h''
    · obtain ⟨o, ho, rfl⟩ := List.mem_map.1 h''
      exact Or.inl (List.mem_map_of_mem _ (mem_ownBook_book ho))
    · exact Or.inr (restedList_ids cfg st p i h'')
  · have h1 : i ∈ (sortOpposite p.side (oppositeBook st p.side)).map Order.orderId :=
      (matchLoop_ids_sublist cfg p
        (sortOpposite p.side (oppositeBook st p.side)) p.quantity).subset h'
    have h2 : i ∈ (oppositeBook st p.side).map Order.orderId :=
      ((sortOpposite_perm p.side (oppositeBook st p.side)).map Order.orderId).subset h1
    obtain ⟨o', ho', he⟩ := List.mem_map.1 h2
    exact Or.inl (he ▸ List.mem_map_of_mem _ (mem_oppositeBook_book ho'))

end ExEngine

namespace ExEngine

theorem submitOrderValid_bookIds_nodup (cfg : ExEngineConfig) (st : EngineState)
    (p : OrderParams) (hnodup : (bookIds st).Nodup)
    (hfresh : p.orderId ∉ bookIds st) :
    (bookIds (submitOrderValid cfg st p).state).Nodup := by
  have hperm := (submitOrderValid_book_perm cfg st p).map Order.orderId
  rw [bookIds, hperm.nodup_iff, List.map_append, List.map_append,
    List.nodup_append, List.nodup_append]
  have hperm2 := bookIds_perm_own_opp st p.side
  have hno := (hperm2.nodup_iff).1 hnodup
  rw [List.nodup_append] at hno
  obtain ⟨n_own, n_opp, disj_oo⟩ := hno
  have hfresh_own : p.orderId ∉ (ownBook st p.side).map Order.orderId :=
    fun h => hfresh (hperm2.symm.subset (List.mem_append.2 (Or.inl h)))
  have hfresh_opp : p.orderId ∉ (oppositeBook st p.side).map Order.orderId :=
    fun h => hfresh (hperm2.symm.subset (List.mem_append.2 (Or.inr h)))
  have hsub := matchLoop_ids_sublist cfg p
    (sortOpposite p.side (oppositeBook st p.side)) p.quantity
  have hpermS := (sortOpposite_perm p.side (oppositeBook st p.side)).map Order.orderId
  have n_sorted := (hpermS.nodup_iff).2 n_opp
  have n_walk := n_sorted.sublist hsub
  have sub_walk : ∀ i ∈ ((matchLoop cfg p p.quantity
      (sortOpposite p.side (oppositeBook st p.side))).2.2).map Order.orderId,
      i ∈ (oppositeBook st p.side).map Order.orderId :=
    fun i hi => hpermS.subset (hsub.subset hi)
  have hrl := restedList_ids cfg st p
  have n_rl : ((match (submitOrderValid cfg st p).rested with
      | some o => [o]
      | none => ([] : List Order)).map Order.orderId).Nodup := by
    rw [submitOrderValid_rested]
    by_cases h : 0 < (matchLoop cfg p p.quantity
        (sortOpposite p.side (oppositeBook st p.side))).2.1
    · rw [if_pos h]
      simp
    · rw [if_neg h]
      simp
  refine ⟨⟨n_own, n_rl, ?_⟩, n_walk, ?_⟩
  · intro i hio hir
    rw [hrl i hir] at hio
    exact hfresh_own hio
  · intro i hif hiw
    have hio2 := sub_walk i hiw
    rcases List.mem_append.1 hif with h | h
    · exact disj_oo h hio2
    · rw [hrl i h] at hio2
      exact hfresh_opp hio2

theorem cancelOrder_bookIds_sublist (st : EngineState) (oid : String) :
    List.Sublist (bookIds (cancelOrder st oid).2.1) (bookIds st) :=
  (cancelOrder_book_sublist st oid).map Order.orderId

theorem submitIds_submit (p : OrderParams) (ops : List Op) :
    submitIds (Op.submit p :: ops) = p.orderId :: submitIds ops := rfl

theorem submitIds_cancel (oid : String) (ops : List Op) :
    submitIds (Op.cancel oid :: ops) = submitIds ops := rfl

theorem runOps_nodup_aux (cfg : ExEngineConfig) :
    ∀ (ops : List Op) (st : EngineState) (res : EngineState × List Event),
      (bookIds st).Nodup → (submitIds ops).Nodup →
      (∀ i ∈ submitIds ops, i ∉ bookIds st) →
      runOps cfg st ops = some res → (bookIds res.1).Nodup := by
  intro ops
  induction ops with
  | nil =>
    intro st res hst _ _ hrun
    rw [runOps] at hrun
    obtain rfl := (Option.some.inj hrun).symm
    exact hst
  | cons op rest ih =>
    intro st res hst hids hfreshs hrun
    cases op with
    | submit p =>
      cases heq : submitOrder cfg st p with
      | none =>
        rw [runOps, heq] at hrun
        exact absurd hrun (by simp)
      | some out =>
        rw [runOps, heq] at hrun
        obtain ⟨r', hr', hres⟩ := Option.map_eq_some'.1 hrun
        obtain ⟨hv, hout⟩ := submitOrder_eq_some heq
        have hfresh_p : p.orderId ∉ bookIds st :=
          hfreshs p.orderId (by rw [submitIds_submit]; exact List.mem_cons_self _ _)
        have hnodup_out : (bookIds out.state).Nodup := by
          rw [hout]
          exact submitOrderValid_bookIds_nodup cfg st p hst hfresh_p
        have hids' : (submitIds rest).Nodup := by
          rw [submitIds_submit] at hids
          exact (List.nodup_cons.1 hids).2
        have hfreshs' : ∀ i ∈ submitIds rest, i ∉ bookIds out.state := by
          intro i hi hmem
          have hne : i ≠ p.orderId := by
            intro he
            rw [submitIds_submit] at hids
            exact (List.nodup_cons.1 hids).1 (he ▸ hi)
          have hsubi : i ∈ bookIds st ∨ i = p.orderId := by
            rw [hout] at hmem
            exact submitOrderValid_bookIds_sub cfg st p i hmem
          rcases hsubi with h' | h'
          · refine hfreshs i ?_ h'
            rw [submitIds_submit]
            exact List.mem_cons_of_mem _ hi
          · exact hne h'
        have hres1 : res.1 = r'.1 := by
          rw [← hres]
        rw [hres1]
        exact ih out.state r' hnodup_out hids' hfreshs' hr'
    | cancel oid =>
      rw [runOps] at hrun
      obtain ⟨r', hr', hres⟩ := Option.map_eq_some'.1 hrun
      have hst' : (bookIds (cancelOrder st oid).2.1).Nodup :=
        hst.sublist (cancelOrder_bookIds_sublist st oid)
      have hids' : (submitIds rest).Nodup := hids
      have hfreshs' : ∀ i ∈ submitIds rest, i ∉ bookIds (cancelOrder st oid).2.1 := by
        intro i hi hmem
        exact hfreshs i hi ((cancelOrder_bookIds_sublist st oid).subset hmem)
      have hres1 : res.1 = r'.1 := by
        rw [← hres]
      rw [hres1]
      exact ih (cancelOrder st oid).2.1 r' hst' hids' hfreshs' hr'

end ExEngine

namespace ExEngine

/-- C8 counterexample: nothing stops a submission from reusing a
resting id — a buy and a non-crossing sell both named "a" end up
resting simultaneously, one in each collection, so an orderId is not
unique across the book. -/
theorem orderId_unique_cex :
    (runOps ⟨1000, 0, 0⟩ initialState
        [Op.submit ⟨"a", 5, 1, Side.buy, 0⟩,
         Op.submit ⟨"a", 10, 1, Side.sell, 1⟩]).map
      (fun r => (r.1.bids.map Order.orderId, r.1.asks.map Order.orderId)) =
      some (["a"], ["a"]) := by
  with_unfolding_all decide

/-- C8 (amended): provided the submissions of the call sequence use
pairwise distinct orderIds, after every sequence of submit and cancel
operations from the empty book each orderId occurs in at most one
resting order across the whole book, and in particular no id appears
in both the bid and the ask collection. -/
theorem runOps_orderId_unique
    (cfg : ExEngineConfig) (ops : List Op) (res : EngineState × List Event)
    (hids : (submitIds ops).Nodup)
    (hrun : runOps cfg initialState ops = some res) :
    (bookIds res.1).Nodup ∧
    ∀ o₁ ∈ res.1.bids, ∀ o₂ ∈ res.1.asks, o₁.orderId ≠ o₂.orderId := by
  have hinit : (bookIds initialState).Nodup := by
    simp [bookIds, book, initialState]
  have hfresh : ∀ i ∈ submitIds ops, i ∉ bookIds initialState := by
    intro i _ h
    simp [bookIds, book, initialState] at h
  have hnodup := runOps_nodup_aux cfg ops initialState res hinit hids hfresh hrun
  refine ⟨hnodup, ?_⟩
  intro o₁ h₁ o₂ h₂ he
  rw [bookIds, book, List.map_append, List.nodup_append] at hnodup
  refine hnodup.2.2 (List.mem_map_of_mem _ h₁) ?_
  rw [he]
  exact List.mem_map_of_mem _ h₂

theorem runOps_orderId_unique_witness :
    (bookIds ⟨[⟨"p1", 5, 1, Side.buy, 0⟩, ⟨"p2", 6, 1, Side.buy, 1⟩], [], 0⟩).Nodup ∧
    ∀ o₁ ∈ [(⟨"p1", 5, 1, Side.buy, 0⟩ : Order), ⟨"p2", 6, 1, Side.buy, 1⟩],
      ∀ o₂ ∈ ([] : List Order), o₁.orderId ≠ o₂.orderId :=
  runOps_orderId_unique ⟨1000, 0, 0⟩
    [Op.submit ⟨"p1", 5, 1, Side.buy, 0⟩, Op.submit ⟨"p2", 6, 1, Side.buy, 1⟩]
    (⟨[⟨"p1", 5, 1, Side.buy, 0⟩, ⟨"p2", 6, 1, Side.buy, 1⟩], [], 0⟩,
      [Event.orderSubmitted ⟨"p1", 5, 1, Side.buy, 0⟩,
        Event.orderRested ⟨"p1", 5, 1, Side.buy, 0⟩,
        Event.orderSubmitted ⟨"p2", 6, 1, Side.buy, 1⟩,
        Event.orderRested ⟨"p2", 6, 1, Side.buy, 1⟩])
    (by decide) (by with_unfolding_all decide)

end ExEngine
